import Mathlib

/-!
Verification of the OneKeyV2 manifest-acquisition pipeline (`main.py`).

The Python functions under scrutiny are shallowly embedded below:

* `parse_key` (main.py 340-347) over an already-parsed key-value container
  (`Vdf`); the external `vdf.loads`/UTF-8 decode is abstracted as a parameter
  or as the parsed value itself, since it is a third-party library.
* the key accumulation of `handle_depot_files` (main.py 241-248) as
  `collectKeys`.
* the SteamTools script emission of `setup_steamtools` (main.py 392-403) as
  `luaLines` (one list element per emitted `\n`-terminated line).
* the GreenLuma config merge of `setup_greenluma` (main.py 426-433) as
  `setup_greenluma_config`, with the file content as a `List Char` and the
  `r+` open / `seek(0)` / `write` (no truncate) semantics as `writeAt`.
* `fetch_files` (main.py 276-337) as `fetch_files`, with network responses
  supplied by an oracle indexed by retry round and URL, and with an explicit
  event trace recording requests and inter-round sleeps.
* the manifest skip-if-exists loop of `handle_depot_files` (main.py 226-240)
  as `processManifests`.
* the depot→manifest version index of `handle_depot_files` (main.py 250-265)
  as `buildIndex`.
* `get_latest_repo_info` (main.py 127-142) as `get_latest_repo_info`, with
  each repository's branch response collapsed to `Option date` (`none` when
  the branch is missing or has no commit data).
-/

namespace OneKeyV2

/-! ### Key-value container model (the `vdf` library's parse result)

`vdf.loads` returns nested Python dicts whose leaves are strings.  A parsed
value is either a string leaf or a section: an insertion-ordered association
list with unique keys (Python dict semantics). -/

inductive Vdf where
  | str (s : String)
  | obj (entries : List (String × Vdf))

/-- Python dict lookup `d[key]` (first matching key; dict keys are unique). -/
def vdfLookup : List (String × Vdf) → String → Option Vdf
  | [], _ => none
  | (k, v) :: rest, key => if k = key then some v else vdfLookup rest key

/-! ### `parse_key` (main.py 340-347)

```python
def parse_key(content: bytes) -> List[Tuple[str, str]]:
    try:
        depots = vdf.loads(content.decode("utf-8"))["depots"]
        return [(d_id, d_info["DecryptionKey"]) for d_id, d_info in depots.items()]
    except Exception as e:
        LOG.error(f"Failed to parse keys: {str(e)}")
        return []
```

The comprehension indexes every subsection with `d_info["DecryptionKey"]`;
a subsection lacking the field raises `KeyError` (and a string-valued
subsection raises `TypeError`), which the `except` turns into `[]`.
`extractPairs` models the comprehension: `none` is the raised exception. -/

def extractPairs : List (String × Vdf) → Option (List (String × Vdf))
  | [] => some []
  | (d_id, d_info) :: rest =>
    match d_info with
    | Vdf.str _ => none
    | Vdf.obj fields =>
      match vdfLookup fields "DecryptionKey" with
      | none => none
      | some v => (extractPairs rest).map (fun l => (d_id, v) :: l)

/-- `parse_key` over the parsed container.  A missing `"depots"` key raises
`KeyError`, a string-valued `"depots"` makes `.items()` raise — both land in
the `except` branch, i.e. `[]`. -/
def parse_key (root : Vdf) : List (String × Vdf) :=
  match root with
  | Vdf.str _ => []
  | Vdf.obj top =>
    match vdfLookup top "depots" with
    | some (Vdf.obj entries) =>
      match extractPairs entries with
      | some l => l
      | none => []
    | _ => []

/-- A depot subsection "lacking a DecryptionKey field": either it is a string
leaf (indexing raises `TypeError`) or an object without the key. -/
def lacksDecryptionKey : Vdf → Bool
  | Vdf.str _ => true
  | Vdf.obj fields => (vdfLookup fields "DecryptionKey").isNone

/-! ### Key accumulation (main.py 241-248)

`handle_depot_files` keeps `collected = []` and, for every tree entry whose
path contains `key.vdf`, runs `collected.extend(parse_key(key_content))`.
`collectKeys` abstracts that loop over the (already fetched and parsed) key
containers in tree order. -/

def collectKeys (keyFiles : List Vdf) : List (String × Vdf) :=
  keyFiles.foldl (fun acc kf => acc ++ parse_key kf) []

/-! ### SteamTools script emission (main.py 392-403)

```python
    lua_content = f'addappid({app_id}, 1, "None")\n'
    for d_id, d_key in depot_data:
        versionlock = False   # hard-coded in the source
        if versionlock:
            for manifest_id in depot_map[d_id]:
                lua_content += f'addappid({d_id}, 1, "{d_key}")\nsetManifestid({d_id},"{manifest_id}")\n'
        else:
            lua_content += f'addappid({d_id}, 1, "{d_key}")\n'
```

Each element of `luaLines` is one `\n`-terminated line of `lua_content`.
The `versionlock` flag (the spec's `versionLockRequested`) is taken as a
parameter because the spec treats it as one; the source currently pins the
local variable to `False`. -/

def grantLine (d k : String) : String := "addappid(" ++ d ++ ", 1, \"" ++ k ++ "\")"

def pinLine (d m : String) : String := "setManifestid(" ++ d ++ ",\"" ++ m ++ "\")"

def luaLines (app_id : String) (depot_data : List (String × String)) (versionlock : Bool)
    (depot_map : String → List String) : List String :=
  grantLine app_id "None" ::
    depot_data.flatMap (fun dk =>
      if versionlock then
        (depot_map dk.1).flatMap (fun m => [grantLine dk.1 dk.2, pinLine dk.1 m])
      else [grantLine dk.1 dk.2])

/-- The version index of the C7 scenario: depot 100 with manifest ids 5, 3. -/
def depotMapC7 : String → List String := fun d => if d = "100" then ["5", "3"] else []

/-- C2 scenario: a container whose `depots` section has two subsections, and
exactly the first one carries a `DecryptionKey` field. -/
def keyContainerC2 : Vdf :=
  Vdf.obj [("depots", Vdf.obj
    [("111", Vdf.obj [("DecryptionKey", Vdf.str "k1")]),
     ("222", Vdf.obj [])])]

/-- Key file with one depot (`"7"`) and key `"a"`. -/
def keyFileA : Vdf :=
  Vdf.obj [("depots", Vdf.obj [("7", Vdf.obj [("DecryptionKey", Vdf.str "a")])])]

/-- Key file with the same depot (`"7"`) and key `"b"`. -/
def keyFileB : Vdf :=
  Vdf.obj [("depots", Vdf.obj [("7", Vdf.obj [("DecryptionKey", Vdf.str "b")])])]

end OneKeyV2

namespace OneKeyV2

lemma extractPairs_eq_none_of_any_lacks :
    ∀ entries : List (String × Vdf),
      entries.any (fun p => lacksDecryptionKey p.2) = true →
      extractPairs entries = none := by
  intro entries h
  induction entries with
  | nil => simp at h
  | cons hd tl ih =>
    rcases hd with ⟨d_id, d_info⟩
    simp only [List.any_cons, Bool.or_eq_true] at h
    match d_info, h with
    | Vdf.str s, _ => rfl
    | Vdf.obj fields, h =>
      simp only [extractPairs]
      rcases hk : vdfLookup fields "DecryptionKey" with _ | v
      · rfl
      · have htl : tl.any (fun p => lacksDecryptionKey p.2) = true := by
          rcases h with h | h
          · simp [lacksDecryptionKey, hk] at h
          · exact h
        rw [ih htl]
        rfl

end OneKeyV2

/-- C2 (counterexample): on a container whose top-level depots section holds two
depot subsections of which exactly one contains a DecryptionKey field, the key
parser returns zero pairs, not exactly one: the missing field raises inside the
comprehension and the `except` branch discards everything. -/
theorem parse_key_two_subsections_counterexample :
    (OneKeyV2.parse_key OneKeyV2.keyContainerC2).length = 0 := rfl

/-- C2 (amended): whenever any depot subsection of the `depots` section lacks a
DecryptionKey field, `parse_key` returns the empty list — the subsection is not
skipped; the pairs extracted from the other subsections are discarded along
with it. -/
theorem parse_key_missing_field_empty
    (entries : List (String × OneKeyV2.Vdf))
    (h : entries.any (fun p => OneKeyV2.lacksDecryptionKey p.2) = true) :
    OneKeyV2.parse_key (OneKeyV2.Vdf.obj [("depots", OneKeyV2.Vdf.obj entries)]) = [] := by
  simp [OneKeyV2.parse_key, OneKeyV2.vdfLookup,
    OneKeyV2.extractPairs_eq_none_of_any_lacks entries h]

/-- C2 (witness): the amended theorem applied to the concrete two-subsection
container of the counterexample. -/
theorem parse_key_missing_field_empty_witness :
    OneKeyV2.parse_key (OneKeyV2.Vdf.obj [("depots", OneKeyV2.Vdf.obj
      [("111", OneKeyV2.Vdf.obj [("DecryptionKey", OneKeyV2.Vdf.str "k1")]),
       ("222", OneKeyV2.Vdf.obj [])])]) = [] :=
  parse_key_missing_field_empty
    [("111", OneKeyV2.Vdf.obj [("DecryptionKey", OneKeyV2.Vdf.str "k1")]),
     ("222", OneKeyV2.Vdf.obj [])] rfl

namespace OneKeyV2

lemma collectKeys_go_countP (p : String × Vdf → Bool) :
    ∀ (kfs : List Vdf) (acc : List (String × Vdf)),
      (kfs.foldl (fun acc kf => acc ++ parse_key kf) acc).countP p =
        acc.countP p + (kfs.map (fun kf => (parse_key kf).countP p)).sum := by
  intro kfs
  induction kfs with
  | nil => intro acc; simp
  | cons hd tl ih =>
    intro acc
    simp only [List.foldl_cons, List.map_cons, List.sum_cons]
    rw [ih, List.countP_append]
    omega

end OneKeyV2

/-- C4 (counterexample): two key files in one acquisition both yielding a pair
for depot "7" produce an accumulated collection with two pairs for that depot
(`[("7","a"), ("7","b")]`): the later pair is appended, not overwritten, so the
result is not limited to one pair per depotId. -/
theorem collectKeys_duplicate_depot_counterexample :
    OneKeyV2.collectKeys [OneKeyV2.keyFileA, OneKeyV2.keyFileB] =
      [("7", OneKeyV2.Vdf.str "a"), ("7", OneKeyV2.Vdf.str "b")] ∧
    (OneKeyV2.collectKeys [OneKeyV2.keyFileA, OneKeyV2.keyFileB]).countP
      (fun pr => pr.1 == "7") = 2 := ⟨rfl, rfl⟩

/-- C4 (amended): key pairs parsed from the key files of one acquisition are
concatenated in file order into the accumulated collection; pairs sharing a
depotId are all retained (for any Boolean predicate, the number of matching
accumulated pairs is the sum of the matching counts of the individual key
files), rather than the later one overwriting the earlier one. -/
theorem collectKeys_counts_additive (kfs : List OneKeyV2.Vdf)
    (p : String × OneKeyV2.Vdf → Bool) :
    (OneKeyV2.collectKeys kfs).countP p =
      (kfs.map (fun kf => (OneKeyV2.parse_key kf).countP p)).sum := by
  unfold OneKeyV2.collectKeys
  rw [OneKeyV2.collectKeys_go_countP p kfs []]
  simp

/-- C7 (counterexample): with the version-lock flag set and version index
`{"100": ["5","3"]}`, the emitted script's depot-100 block is two grant/pin
pairs — the grant line for depot 100 appears twice (once before each pin), not
exactly once followed by the two pin lines. -/
theorem luaLines_versionlock_counterexample :
    OneKeyV2.luaLines "1" [("100", "KEYA")] true OneKeyV2.depotMapC7 =
      [OneKeyV2.grantLine "1" "None",
       OneKeyV2.grantLine "100" "KEYA", OneKeyV2.pinLine "100" "5",
       OneKeyV2.grantLine "100" "KEYA", OneKeyV2.pinLine "100" "3"] ∧
    (OneKeyV2.luaLines "1" [("100", "KEYA")] true OneKeyV2.depotMapC7).countP
      (fun l => l == OneKeyV2.grantLine "100" "KEYA") = 2 := by
  constructor
  · rfl
  · decide

/-- C7 (amended): with the version-lock flag set (in the source the local
`versionlock` is pinned to `False`, so the flag is modelled as a parameter, as
the spec prescribes) and version index `{"100": ["5","3"]}`, the depot-100
block of the emitted script consists of one grant line followed by one
manifest-pin line per manifestId, in index order "5" then "3": grant, pin "5",
grant, pin "3". -/
theorem luaLines_versionlock_pairs :
    OneKeyV2.luaLines "1" [("100", "KEYA")] true OneKeyV2.depotMapC7 =
      OneKeyV2.grantLine "1" "None" ::
        ["5", "3"].flatMap (fun m =>
          [OneKeyV2.grantLine "100" "KEYA", OneKeyV2.pinLine "100" m]) := rfl

namespace OneKeyV2

/-! ### GreenLuma config merge (main.py 426-433)

```python
        config_path = variable.STEAM_PATH / "config" / "config.vdf"
        with open(config_path, "r+") as f:
            content = vdf.loads(f.read())
            content.setdefault("depots", {}).update(
                {d_id: {"DecryptionKey": d_key} for d_id, d_key in depot_data}
            )
            f.seek(0)
            f.write(vdf.dumps(content))
        LOG.info("GreenLuma config updated.")
        return True
    except Exception as e:
        ...
        return False
```

The file content is modelled as a `List Char`.  The external `vdf.loads` /
`vdf.dumps` are abstracted as parameters `loads` / `dumps`.  Opening with
`"r+"` and writing after `seek(0)` without truncation overwrites the first
`new.length` characters and keeps the old tail: `writeAt`. -/

/-- `f.seek(0); f.write(new)` on an `r+` file holding `old`: the new text
replaces the first `new.length` characters; the remainder of `old` stays. -/
def writeAt (new old : List Char) : List Char := new ++ old.drop new.length

/-- Python dict assignment `d[k] = v`: replace the value at `k` in place, or
append the binding at the end when `k` is absent. -/
def setEntry : List (String × Vdf) → String → Vdf → List (String × Vdf)
  | [], k, v => [(k, v)]
  | (k0, v0) :: rest, k, v =>
    if k0 = k then (k0, v) :: rest else (k0, v0) :: setEntry rest k v

/-- Python `base.update(upd)`: assign each binding of `upd` into `base` in
order. -/
def dictUpdate (base upd : List (String × Vdf)) : List (String × Vdf) :=
  upd.foldl (fun acc kv => setEntry acc kv.1 kv.2) base

/-- The dict comprehension `{d_id: {"DecryptionKey": d_key} for d_id, d_key in
depot_data}` (later duplicates overwrite earlier ones). -/
def depotEntries (depot_data : List (String × Vdf)) : List (String × Vdf) :=
  dictUpdate [] (depot_data.map (fun dk => (dk.1, Vdf.obj [("DecryptionKey", dk.2)])))

/-- `content.setdefault("depots", {}).update({...})` on the parsed config.
`none` models a raised exception: `.setdefault` on a string root
(`AttributeError`) or `.update` on a string-valued `"depots"` section. -/
def greenlumaMergedRoot (root : Vdf) (depot_data : List (String × Vdf)) : Option Vdf :=
  match root with
  | Vdf.str _ => none
  | Vdf.obj top =>
    match vdfLookup top "depots" with
    | some (Vdf.str _) => none
    | some (Vdf.obj dep) =>
      some (Vdf.obj (setEntry top "depots"
        (Vdf.obj (dictUpdate dep (depotEntries depot_data)))))
    | none =>
      some (Vdf.obj (top ++ [("depots", Vdf.obj (depotEntries depot_data))]))

/-- The config.vdf read-merge-write of `setup_greenluma`.  Returns the
function's boolean result together with the final content of the config file.
A parse failure (`loads` returning `none`, the raised exception of
`vdf.loads`) lands in the `except` branch before any write. -/
def setup_greenluma_config (loads : List Char → Option Vdf) (dumps : Vdf → List Char)
    (depot_data : List (String × Vdf)) (oldContent : List Char) : Bool × List Char :=
  match loads oldContent with
  | none => (false, oldContent)
  | some root =>
    match greenlumaMergedRoot root depot_data with
    | none => (false, oldContent)
    | some root' => (true, writeAt (dumps root') oldContent)

end OneKeyV2

/-- C8: if the existing config.vdf content fails to parse during the GreenLuma
merge, `setup_greenluma` returns false and the file content is unchanged — the
exception is raised before any write to the file, so no partially merged
content is ever written. -/
theorem setup_greenluma_parse_failure_unchanged
    (loads : List Char → Option OneKeyV2.Vdf) (dumps : OneKeyV2.Vdf → List Char)
    (depot_data : List (String × OneKeyV2.Vdf)) (oldContent : List Char)
    (h : loads oldContent = none) :
    OneKeyV2.setup_greenluma_config loads dumps depot_data oldContent =
      (false, oldContent) := by
  simp [OneKeyV2.setup_greenluma_config, h]

/-- C8 (witness): the theorem at a concrete unparsable content. -/
theorem setup_greenluma_parse_failure_unchanged_witness :
    OneKeyV2.setup_greenluma_config (fun _ => none) (fun _ => []) []
      "garbage".data = (false, "garbage".data) :=
  setup_greenluma_parse_failure_unchanged (fun _ => none) (fun _ => []) []
    "garbage".data rfl

/-- C9: on a successful GreenLuma merge the new serialization is written at
offset 0 without truncating the file: the result starts with the new
serialization, and whenever the serialization is shorter than the old content,
the file keeps its old length and the old trailing characters beyond the new
length remain. -/
theorem setup_greenluma_write_keeps_tail
    (loads : List Char → Option OneKeyV2.Vdf) (dumps : OneKeyV2.Vdf → List Char)
    (depot_data : List (String × OneKeyV2.Vdf)) (oldContent : List Char)
    (root root' : OneKeyV2.Vdf)
    (hl : loads oldContent = some root)
    (hm : OneKeyV2.greenlumaMergedRoot root depot_data = some root')
    (hshort : (dumps root').length < oldContent.length) :
    (OneKeyV2.setup_greenluma_config loads dumps depot_data oldContent).1 = true ∧
    ((OneKeyV2.setup_greenluma_config loads dumps depot_data oldContent).2).take
        (dumps root').length = dumps root' ∧
    ((OneKeyV2.setup_greenluma_config loads dumps depot_data oldContent).2).drop
        (dumps root').length = oldContent.drop (dumps root').length ∧
    ((OneKeyV2.setup_greenluma_config loads dumps depot_data oldContent).2).length
        = oldContent.length := by
  have hres : OneKeyV2.setup_greenluma_config loads dumps depot_data oldContent =
      (true, OneKeyV2.writeAt (dumps root') oldContent) := by
    simp [OneKeyV2.setup_greenluma_config, hl, hm]
  refine ⟨by rw [hres], ?_, ?_, ?_⟩
  · rw [hres]
    simp [OneKeyV2.writeAt, List.take_left']
  · rw [hres]
    simp [OneKeyV2.writeAt, List.drop_left']
  · rw [hres]
    simp only [OneKeyV2.writeAt, List.length_append, List.length_drop]
    omega

/-- C9 (witness): the theorem at a concrete parse/dump pair whose serialization
("AB") is shorter than the old file content ("XYZW"): the merged file is "ABZW".
-/
theorem setup_greenluma_write_keeps_tail_witness :
    (OneKeyV2.setup_greenluma_config (fun _ => some (OneKeyV2.Vdf.obj []))
        (fun _ => "AB".data) [] "XYZW".data).1 = true ∧
    ((OneKeyV2.setup_greenluma_config (fun _ => some (OneKeyV2.Vdf.obj []))
        (fun _ => "AB".data) [] "XYZW".data).2).take 2 = "AB".data ∧
    ((OneKeyV2.setup_greenluma_config (fun _ => some (OneKeyV2.Vdf.obj []))
        (fun _ => "AB".data) [] "XYZW".data).2).drop 2 = "XYZW".data.drop 2 ∧
    ((OneKeyV2.setup_greenluma_config (fun _ => some (OneKeyV2.Vdf.obj []))
        (fun _ => "AB".data) [] "XYZW".data).2).length = "XYZW".data.length :=
  setup_greenluma_write_keeps_tail (fun _ => some (OneKeyV2.Vdf.obj []))
    (fun _ => "AB".data) [] "XYZW".data (OneKeyV2.Vdf.obj [])
    (OneKeyV2.Vdf.obj [("depots", OneKeyV2.Vdf.obj [])]) rfl rfl (by decide)

namespace OneKeyV2

/-! ### Mirror Fetcher (main.py 276-337)

```python
    retry_count = variable.CONFIG.get("network", {}).get("retry_count", 3)
    retry_delay = variable.CONFIG.get("network", {}).get("retry_delay", 1)
    last_error = None

    while retry_count > 0:
        for url in url_list:
            try:
                response = await client.get(url, ...)
                response.raise_for_status()
                return response.read()
            except ...: last_error = e
        retry_count -= 1
        if retry_count > 0:
            await asyncio.sleep(retry_delay)

    raise Exception(f"Failed to download {path} after all retries. Last error: {str(last_error)}")
```

Network behaviour is an oracle mapping (retry round, url) to the outcome of
`client.get` + `raise_for_status`: `Except.ok body` for a 2xx response whose
body is returned, `Except.error e` for a connection error, timeout or non-2xx
status.  The model additionally returns the trace of requests made and sleeps
performed, in order.  `retry_count` comes from the configuration as a Python
int, hence `Int`. -/

/-- The configuration defaults of main.py 300-302. -/
def defaultRetryCount : Int := 3

/-- Scheduled effects of one `fetch_files` call, in order. -/
inductive FEvent where
  | req (round : Nat) (url : String)
  | sleep (delay : Nat)
deriving DecidableEq

/-- One pass of the inner `for url in url_list` loop at retry round `round`:
the trace of requests, the returned body (if some URL gave 2xx) and the
updated `last_error`. -/
def tryUrls (oracle : Nat → String → Except String String) (round : Nat)
    (lastErr : Option String) :
    List String → List FEvent × Option String × Option String
  | [] => ([], none, lastErr)
  | u :: rest =>
    match oracle round u with
    | Except.ok body => ([FEvent.req round u], some body, lastErr)
    | Except.error e =>
      let r := tryUrls oracle round (some e) rest
      (FEvent.req round u :: r.1, r.2.1, r.2.2)

/-- The `while retry_count > 0` loop, with the remaining count as fuel and the
current round index tracked for the oracle.  `retry_count -= 1` happens after
the inner loop; the sleep is executed only when the decremented count is still
positive. -/
def fetchLoop (oracle : Nat → String → Except String String) (urls : List String)
    (delay : Nat) (path : String) :
    Nat → Nat → Option String → List FEvent × Except (String × Option String) String
  | 0, _, lastErr => ([], Except.error (path, lastErr))
  | n + 1, round, lastErr =>
    let t := tryUrls oracle round lastErr urls
    match t.2.1 with
    | some body => (t.1, Except.ok body)
    | none =>
      if n > 0 then
        let r := fetchLoop oracle urls delay path n (round + 1) t.2.2
        (t.1 ++ FEvent.sleep delay :: r.1, r.2)
      else
        let r := fetchLoop oracle urls delay path n (round + 1) t.2.2
        (t.1 ++ r.1, r.2)

/-- `fetch_files` for one file identity: given the candidate URL list, the
configured retry count and inter-round delay, and the network oracle, returns
the event trace and either the downloaded body or the raised error, which
carries the file path and the last observed error (`none` when no request was
ever made). -/
def fetch_files (path : String) (urls : List String) (retry_count : Int)
    (retry_delay : Nat) (oracle : Nat → String → Except String String) :
    List FEvent × Except (String × Option String) String :=
  fetchLoop oracle urls retry_delay path retry_count.toNat 0 none

/-- The request trace of `n` consecutive fully failing rounds starting at
round `start`, each followed by the inter-round sleep. -/
def roundsTrace (urls : List String) (delay : Nat) : Nat → Nat → List FEvent
  | _, 0 => []
  | start, n + 1 =>
    urls.map (FEvent.req start) ++ FEvent.sleep delay :: roundsTrace urls delay (start + 1) n

end OneKeyV2

/-- C10: with a zero or negative configured retry count, `fetch_files` raises
immediately: no request is issued against any candidate URL (empty event
trace) and the raised error carries the path and a last-error of `none`. -/
theorem fetch_files_nonpositive_retry (path : String) (urls : List String)
    (retry_count : Int) (retry_delay : Nat)
    (oracle : Nat → String → Except String String)
    (h : retry_count ≤ 0) :
    OneKeyV2.fetch_files path urls retry_count retry_delay oracle =
      ([], Except.error (path, none)) := by
  unfold OneKeyV2.fetch_files
  rw [Int.toNat_of_nonpos h]
  rfl

/-- C10 (witness): retry count -2 with a concrete always-succeeding oracle
still raises at once. -/
theorem fetch_files_nonpositive_retry_witness :
    OneKeyV2.fetch_files "depots/1_2.manifest" ["https://m1", "https://m2"] (-2) 1
      (fun _ _ => Except.ok "BODY") = ([], Except.error ("depots/1_2.manifest", none)) :=
  fetch_files_nonpositive_retry "depots/1_2.manifest" ["https://m1", "https://m2"]
    (-2) 1 (fun _ _ => Except.ok "BODY") (by decide)

namespace OneKeyV2

lemma tryUrls_success (oracle : Nat → String → Except String String) (r : Nat)
    (u body : String) (post : List String) :
    ∀ (pre : List String) (le : Option String),
      (∀ v ∈ pre, ∃ e, oracle r v = Except.error e) →
      oracle r u = Except.ok body →
      ∃ le', tryUrls oracle r le (pre ++ u :: post) =
        (pre.map (FEvent.req r) ++ [FEvent.req r u], some body, le') := by
  intro pre
  induction pre with
  | nil =>
    intro le _ hu
    exact ⟨le, by simp [tryUrls, hu]⟩
  | cons v pre' ih =>
    intro le hpre hu
    obtain ⟨e, he⟩ := hpre v (List.mem_cons_self v pre')
    obtain ⟨le', hrec⟩ := ih (some e) (fun w hw => hpre w (List.mem_cons_of_mem v hw)) hu
    exact ⟨le', by simp [tryUrls, he, hrec]⟩

lemma tryUrls_allFail (oracle : Nat → String → Except String String) (r : Nat) :
    ∀ (l : List String) (le : Option String),
      (∀ v ∈ l, ∃ e, oracle r v = Except.error e) →
      ∃ le', tryUrls oracle r le l = (l.map (FEvent.req r), none, le') := by
  intro l
  induction l with
  | nil => intro le _; exact ⟨le, rfl⟩
  | cons v rest ih =>
    intro le h
    obtain ⟨e, he⟩ := h v (List.mem_cons_self v rest)
    obtain ⟨le', hrec⟩ := ih (some e) (fun w hw => h w (List.mem_cons_of_mem v hw))
    exact ⟨le', by simp [tryUrls, he, hrec]⟩

lemma tryUrls_errOracle (efn : Nat → String → String) (r : Nat) (ulast : String) :
    ∀ (upre : List String) (le : Option String),
      tryUrls (fun rd v => Except.error (efn rd v)) r le (upre ++ [ulast]) =
        ((upre ++ [ulast]).map (FEvent.req r), none, some (efn r ulast)) := by
  intro upre
  induction upre with
  | nil => intro le; simp [tryUrls]
  | cons v rest ih =>
    intro le
    simp [tryUrls, ih (some (efn r v))]

lemma fetchLoop_hit (oracle : Nat → String → Except String String)
    (urls : List String) (delay : Nat) (path : String) (round n : Nat)
    (le le2 : Option String) (evs : List FEvent) (body : String)
    (hok : tryUrls oracle round le urls = (evs, some body, le2)) :
    fetchLoop oracle urls delay path (n + 1) round le = (evs, Except.ok body) := by
  simp [fetchLoop, hok]

lemma fetchLoop_step (oracle : Nat → String → Except String String)
    (urls : List String) (delay : Nat) (path : String) (round n : Nat)
    (le le2 : Option String) (evs : List FEvent)
    (hfail : tryUrls oracle round le urls = (evs, none, le2)) (hn : 0 < n) :
    fetchLoop oracle urls delay path (n + 1) round le =
      (evs ++ FEvent.sleep delay :: (fetchLoop oracle urls delay path n (round + 1) le2).1,
       (fetchLoop oracle urls delay path n (round + 1) le2).2) := by
  simp [fetchLoop, hfail, hn]

lemma fetchLoop_last (oracle : Nat → String → Except String String)
    (urls : List String) (delay : Nat) (path : String) (round : Nat)
    (le le2 : Option String) (evs : List FEvent)
    (hfail : tryUrls oracle round le urls = (evs, none, le2)) :
    fetchLoop oracle urls delay path 1 round le = (evs, Except.error (path, le2)) := by
  simp [fetchLoop, hfail]

lemma fetchLoop_success (oracle : Nat → String → Except String String)
    (urls : List String) (delay : Nat) (path : String)
    (pre post : List String) (u body : String) (hsplit : urls = pre ++ u :: post) :
    ∀ (i n round : Nat) (le : Option String),
      i < n →
      (∀ r, round ≤ r → r < round + i → ∀ v ∈ urls, ∃ e, oracle r v = Except.error e) →
      (∀ v ∈ pre, ∃ e, oracle (round + i) v = Except.error e) →
      oracle (round + i) u = Except.ok body →
      fetchLoop oracle urls delay path n round le =
        (roundsTrace urls delay round i ++
           pre.map (FEvent.req (round + i)) ++ [FEvent.req (round + i) u],
         Except.ok body) := by
  subst hsplit
  intro i
  induction i with
  | zero =>
    intro n round le hn _ hpre hu
    obtain ⟨m, rfl⟩ : ∃ m, n = m + 1 := ⟨n - 1, by omega⟩
    obtain ⟨le', ht⟩ := tryUrls_success oracle round u body post pre le
      (by simpa using hpre) (by simpa using hu)
    rw [fetchLoop_hit _ _ _ _ _ _ _ _ _ _ ht]
    simp [roundsTrace]
  | succ j ih =>
    intro n round le hn hrounds hpre hu
    obtain ⟨m, rfl⟩ : ∃ m, n = m + 1 := ⟨n - 1, by omega⟩
    have hm : 0 < m := by omega
    have hfull : ∀ v ∈ pre ++ u :: post, ∃ e, oracle round v = Except.error e :=
      hrounds round (Nat.le_refl round) (by omega)
    obtain ⟨le', ht⟩ := tryUrls_allFail oracle round (pre ++ u :: post) le hfull
    have hrec := ih m (round + 1) le' (by omega)
      (fun r hr1 hr2 => hrounds r (by omega) (by omega))
      (by
        intro v hv
        have h2 : round + 1 + j = round + (j + 1) := by omega
        rw [h2]; exact hpre v hv)
      (by
        have h2 : round + 1 + j = round + (j + 1) := by omega
        rw [h2]; exact hu)
    rw [fetchLoop_step _ _ _ _ _ _ _ _ _ ht hm, hrec]
    have h2 : round + 1 + j = round + (j + 1) := by omega
    simp [roundsTrace, h2]

lemma fetchLoop_allFail (efn : Nat → String → String)
    (urls : List String) (delay : Nat) (path : String)
    (upre : List String) (ulast : String) (hsplit : urls = upre ++ [ulast]) :
    ∀ (n round : Nat) (le : Option String), 0 < n →
      fetchLoop (fun rd v => Except.error (efn rd v)) urls delay path n round le =
        (roundsTrace urls delay round (n - 1) ++
           urls.map (FEvent.req (round + (n - 1))),
         Except.error (path, some (efn (round + (n - 1)) ulast))) := by
  subst hsplit
  intro n
  induction n with
  | zero => intro round le h; omega
  | succ m ih =>
    intro round le _
    have ht := tryUrls_errOracle efn round ulast upre le
    rcases Nat.eq_zero_or_pos m with hm | hm
    · subst hm
      rw [fetchLoop_last _ _ _ _ _ _ _ _ ht]
      simp [roundsTrace]
    · have hrec := ih (round + 1) (some (efn round ulast)) hm
      rw [fetchLoop_step _ _ _ _ _ _ _ _ _ ht hm, hrec]
      have h1 : round + 1 + (m - 1) = round + (m + 1 - 1) := by omega
      have h2 : m + 1 - 1 = (m - 1) + 1 := by omega
      rw [h1]
      simp [h2, roundsTrace, List.append_assoc]

end OneKeyV2

/-- C1: for a single-file fetch, (a) if every candidate URL fails in every
round before round `i`, the candidates before `u` fail in round `i`, and `u`
answers 2xx with `body` in round `i < retry_count`, then `fetch_files` returns
`body` and its trace stops at that request — no subsequent candidate URL is
tried; (b) if every candidate URL fails in every round, it raises only after
`retry_count` full rounds over the whole ordered URL list, with exactly one
inter-round sleep between consecutive rounds and none after the last, and the
raised error carries the file path and the last observed error (the error of
the last URL in the last round). -/
theorem fetch_files_retry_spec (path : String) (urls : List String)
    (retry_count : Int) (retry_delay : Nat) :
    (∀ (oracle : Nat → String → Except String String) (pre post : List String)
       (u body : String) (i : Nat),
       urls = pre ++ u :: post →
       (∀ r, r < i → ∀ v ∈ urls, ∃ e, oracle r v = Except.error e) →
       (∀ v ∈ pre, ∃ e, oracle i v = Except.error e) →
       oracle i u = Except.ok body →
       i < retry_count.toNat →
       OneKeyV2.fetch_files path urls retry_count retry_delay oracle =
         (OneKeyV2.roundsTrace urls retry_delay 0 i ++
            pre.map (OneKeyV2.FEvent.req i) ++ [OneKeyV2.FEvent.req i u],
          Except.ok body)) ∧
    (∀ (efn : Nat → String → String) (upre : List String) (ulast : String),
       urls = upre ++ [ulast] → 0 < retry_count.toNat →
       OneKeyV2.fetch_files path urls retry_count retry_delay
           (fun rd v => Except.error (efn rd v)) =
         (OneKeyV2.roundsTrace urls retry_delay 0 (retry_count.toNat - 1) ++
            urls.map (OneKeyV2.FEvent.req (retry_count.toNat - 1)),
          Except.error (path, some (efn (retry_count.toNat - 1) ulast)))) := by
  constructor
  · intro oracle pre post u body i hsplit hrounds hpre hu hi
    have h := OneKeyV2.fetchLoop_success oracle urls retry_delay path pre post u body
      hsplit i retry_count.toNat 0 none hi
      (fun r hr1 hr2 v hv => hrounds r (by omega) v (hsplit ▸ hv))
      (by simpa using hpre) (by simpa using hu)
    simpa [OneKeyV2.fetch_files] using h
  · intro efn upre ulast hsplit hpos
    have h := OneKeyV2.fetchLoop_allFail efn urls retry_delay path upre ulast hsplit
      retry_count.toNat 0 none hpos
    simpa [OneKeyV2.fetch_files] using h

/-- C1 (witness): with the default retry count 3, delay 1 and two mirrors:
(a) an oracle failing all of round 0 and the first mirror of round 1, then
answering 2xx on the second mirror, makes `fetch_files` return the body after
the trace round0(m1), round0(m2), sleep, round1(m1), round1(m2);
(b) with every request failing, `fetch_files` raises after 3 full rounds with
2 sleeps, carrying the path and the error of round 2 on the last mirror. -/
theorem fetch_files_retry_spec_witness :
    OneKeyV2.fetch_files "p/f.manifest" ["m1", "m2"] OneKeyV2.defaultRetryCount 1
        (fun rd v => if rd = 1 && v = "m2" then Except.ok "BODY"
                     else Except.error ("err-" ++ toString rd ++ "-" ++ v)) =
      (OneKeyV2.roundsTrace ["m1", "m2"] 1 0 1 ++
         [OneKeyV2.FEvent.req 1 "m1"] ++ [OneKeyV2.FEvent.req 1 "m2"],
       Except.ok "BODY") ∧
    OneKeyV2.fetch_files "p/f.manifest" ["m1", "m2"] OneKeyV2.defaultRetryCount 1
        (fun rd v => Except.error ("err-" ++ toString rd ++ "-" ++ v)) =
      (OneKeyV2.roundsTrace ["m1", "m2"] 1 0 2 ++
         [OneKeyV2.FEvent.req 2 "m1", OneKeyV2.FEvent.req 2 "m2"],
       Except.error ("p/f.manifest", some "err-2-m2")) := by
  have h := fetch_files_retry_spec "p/f.manifest" ["m1", "m2"]
    OneKeyV2.defaultRetryCount 1
  constructor
  · have ha := h.1
      (fun rd v => if rd = 1 && v = "m2" then Except.ok "BODY"
                   else Except.error ("err-" ++ toString rd ++ "-" ++ v))
      ["m1"] [] "m2" "BODY" 1 rfl
      (by
        intro r hr v hv
        interval_cases r
        exact ⟨"err-0-" ++ v, by
          fin_cases hv <;> rfl⟩)
      (by
        intro v hv
        fin_cases hv
        exact ⟨"err-1-m1", rfl⟩)
      rfl (by decide)
    simpa using ha
  · have hb := h.2 (fun rd v => "err-" ++ toString rd ++ "-" ++ v) ["m1"] "m2"
      rfl (by decide)
    simpa using hb

namespace OneKeyV2

/-! ### Manifest download loop with skip-if-exists (main.py 226-240)

```python
        for item in tree_res.json()["tree"]:
            file_path = str(item["path"])
            if file_path.endswith(".manifest"):
                save_path = depot_cache / file_path
                if save_path.exists():
                    LOG.warning(f"Manifest already exists: {save_path}")
                    continue
                content = await fetch_files(...)
                with open(save_path, "wb") as f:
                    f.write(content)
```

`processManifests tree ex` returns the relative paths actually downloaded
(each download is one `fetch_files` call followed by a write creating the
file), given the tree entry paths in order and the predicate `ex` telling
which relative paths already exist under the destination directory.  A write
makes the path exist for the remainder of the run. -/

/-- Python `s.endswith(suffix)`, at the character level. -/
def endsWithStr (s suffix : String) : Bool := suffix.data.isSuffixOf s.data

def processManifests : List String → (String → Bool) → List String
  | [], _ => []
  | p :: rest, ex =>
    if endsWithStr p ".manifest" then
      if ex p then processManifests rest ex
      else p :: processManifests rest (fun q => q == p || ex q)
    else processManifests rest ex

lemma processManifests_not_mem_of_exists :
    ∀ (tree : List String) (ex : String → Bool) (p : String),
      ex p = true → p ∉ processManifests tree ex := by
  intro tree
  induction tree with
  | nil => intro ex p _; simp [processManifests]
  | cons hd rest ih =>
    intro ex p hp
    by_cases hm : endsWithStr hd ".manifest" = true <;> simp only [processManifests, hm]
    · by_cases hex : ex hd <;> simp only [hex]
      · simp only [if_pos]
        exact ih ex p hp
      · simp only [Bool.false_eq_true, if_neg]
        intro hmem
        rcases List.mem_cons.mp hmem with h | h
        · subst h; simp [hp] at hex
        · exact ih (fun q => q == hd || ex q) p (by simp [hp]) h
    · simp only [Bool.false_eq_true, if_neg]
      exact ih ex p hp

lemma processManifests_empty_of_covered :
    ∀ (tree : List String) (ex ex' : String → Bool),
      (∀ q, ex q = true → ex' q = true) →
      (∀ q, q ∈ processManifests tree ex → ex' q = true) →
      processManifests tree ex' = [] := by
  intro tree
  induction tree with
  | nil => intro ex ex' _ _; rfl
  | cons hd rest ih =>
    intro ex ex' hsub hcov
    by_cases hm : endsWithStr hd ".manifest" = true <;> simp only [processManifests, hm]
    · by_cases hex : ex hd
      · have hex' : ex' hd = true := hsub hd hex
        simp only [hex', if_pos]
        refine ih ex ex' hsub ?_
        intro q hq
        refine hcov q ?_
        simpa [processManifests, hm, hex] using hq
      · have hdl : hd ∈ processManifests (hd :: rest) ex := by
          simp [processManifests, hm, hex]
        have hex' : ex' hd = true := hcov hd hdl
        simp only [hex', if_pos]
        refine ih (fun q => q == hd || ex q) ex' ?_ ?_
        · intro q hq
          rcases Bool.or_eq_true_iff.mp hq with h | h
          · have : q = hd := by simpa using h
            subst this; exact hex'
          · exact hsub q h
        · intro q hq
          refine hcov q ?_
          simp [processManifests, hm, hex]
          exact Or.inr hq
    · simp only [Bool.false_eq_true, if_neg]
      refine ih ex ex' hsub ?_
      intro q hq
      refine hcov q ?_
      simpa [processManifests, hm] using hq

end OneKeyV2

/-- C6: (a) a tree entry ending in `.manifest` whose relative path already
exists under the destination directory is never downloaded (hence never
overwritten) by the acquisition loop; (b) a second run of the same acquisition
against the same destination — where everything the first run downloaded now
exists — performs zero network calls for manifest files. -/
theorem processManifests_skip_if_exists (tree : List String) (ex : String → Bool) :
    (∀ p, ex p = true → p ∉ OneKeyV2.processManifests tree ex) ∧
    OneKeyV2.processManifests tree
        (fun q => ex q || (OneKeyV2.processManifests tree ex).contains q) = [] := by
  constructor
  · intro p hp
    exact OneKeyV2.processManifests_not_mem_of_exists tree ex p hp
  · refine OneKeyV2.processManifests_empty_of_covered tree ex _ ?_ ?_
    · intro q hq; simp [hq]
    · intro q hq
      simp only [Bool.or_eq_true]
      exact Or.inr (List.elem_eq_true_of_mem hq)

/-- C6 (witness): with `dir/7_5.manifest` already on disk and a tree holding
it plus a fresh manifest and a key file, only the fresh manifest is
downloaded, and a second run downloads nothing. -/
theorem processManifests_skip_if_exists_witness :
    "dir/7_5.manifest" ∉ OneKeyV2.processManifests
      ["dir/7_5.manifest", "7_9.manifest", "Key.vdf"]
      (fun q => q == "dir/7_5.manifest") ∧
    OneKeyV2.processManifests ["dir/7_5.manifest", "7_9.manifest", "Key.vdf"]
      (fun q => (q == "dir/7_5.manifest") ||
        (OneKeyV2.processManifests ["dir/7_5.manifest", "7_9.manifest", "Key.vdf"]
          (fun q2 => q2 == "dir/7_5.manifest")).contains q) = [] := by
  have h := processManifests_skip_if_exists
    ["dir/7_5.manifest", "7_9.manifest", "Key.vdf"] (fun q => q == "dir/7_5.manifest")
  exact ⟨h.1 "dir/7_5.manifest" (by decide), h.2⟩

namespace OneKeyV2

/-! ### Depot → manifest version index (main.py 250-265)

```python
        for item in tree_res.json()["tree"]:
            if not item["path"].endswith(".manifest"):
                continue
            filename = Path(item["path"]).stem
            if "_" not in filename:
                continue
            depot_id, manifest_id = filename.replace(".manifest", "").split("_", 1)
            if not (depot_id.isdigit() and manifest_id.isdigit()):
                continue
            depot_map.setdefault(depot_id, []).append(manifest_id)

        for depot_id in depot_map:
            depot_map[depot_id].sort(key=lambda x: int(x), reverse=True)
```
-/

/-- The final path component (`pathlib.PurePath.name` for the paths at hand:
tree paths are slash-separated and, ending in `.manifest`, never end in a
separator). -/
def lastComponent (p : String) : String :=
  String.mk ((p.data.reverse.takeWhile (fun c => c ≠ '/')).reverse)

/-- `pathlib.PurePath(...).stem` of a file name: strip the last suffix, where
the suffix starts at the last dot only if that dot is neither the first nor
the last character of the name. -/
def pyStem (name : String) : String :=
  let cs := name.data
  match cs.reverse.findIdx? (fun c => c = '.') with
  | none => name
  | some ri =>
    let i := cs.length - 1 - ri
    if 0 < i ∧ i + 1 < cs.length then String.mk (cs.take i) else name

/-- Left-to-right non-overlapping removal of `".manifest"`, i.e. Python's
`filename.replace(".manifest", "")`.  The `Nat` fuel, seeded with the input
length, only bounds the scan so the recursion is structural. -/
def replaceManifestAux : Nat → List Char → List Char
  | 0, l => l
  | _ + 1, [] => []
  | n + 1, c :: rest =>
    if (c :: rest).take 9 = ".manifest".data then replaceManifestAux n ((c :: rest).drop 9)
    else c :: replaceManifestAux n rest

/-- `filename.replace(".manifest", "")`. -/
def replaceManifest (l : List Char) : List Char := replaceManifestAux l.length l

/-- `s.split(sep, 1)` when it yields two parts: split at the first occurrence
of `sep`; `none` when `sep` does not occur. -/
def splitFirst (sep : Char) : List Char → Option (List Char × List Char)
  | [] => none
  | c :: rest =>
    if c = sep then some ([], rest)
    else (splitFirst sep rest).map (fun pr => (c :: pr.1, pr.2))

/-- Python `str.isdigit()` on ASCII content: nonempty and all characters are
decimal digits. -/
def isDigits (s : String) : Bool := !s.data.isEmpty && s.data.all Char.isDigit

/-- One tree path's contribution to the version index: `some (depotId,
manifestId)` exactly when the source's filter chain keeps the entry. -/
def entryPair (p : String) : Option (String × String) :=
  if endsWithStr p ".manifest" then
    let filename := pyStem (lastComponent p)
    if filename.data.contains '_' then
      match splitFirst '_' (replaceManifest filename.data) with
      | some (d, m) =>
        if isDigits (String.mk d) && isDigits (String.mk m) then
          some (String.mk d, String.mk m)
        else none
      | none => none
    else none
  else none

/-- `depot_map.setdefault(depot_id, []).append(manifest_id)` on the
insertion-ordered dict, modelled as an association list: append to the first
binding of the key, or add a new binding at the end. -/
def addPair : List (String × List String) → String → String → List (String × List String)
  | [], d, m => [(d, [m])]
  | (k, l) :: rest, d, m =>
    if k = d then (k, l ++ [m]) :: rest else (k, l) :: addPair rest d m

/-- One iteration of the first loop: the tree path either contributes its
(depotId, manifestId) pair or leaves the map unchanged. -/
def collectStep (acc : List (String × List String)) (p : String) :
    List (String × List String) :=
  match entryPair p with
  | some dm => addPair acc dm.1 dm.2
  | none => acc

/-- The first loop: fold the tree paths into the unsorted depot map. -/
def collectIndex (tree : List String) : List (String × List String) :=
  tree.foldl collectStep []

/-- `int(x)` on a decimal-digit string. -/
def toNum (s : String) : Nat := s.data.foldl (fun n c => n * 10 + (c.toNat - 48)) 0

/-- Stable insertion (descending by `int` value, ties keep earlier elements
first): the specification of one step of Python's stable
`sort(key=int, reverse=True)`. -/
def insertDesc (m : String) : List String → List String
  | [] => [m]
  | x :: rest => if toNum m ≤ toNum x then x :: insertDesc m rest else m :: x :: rest

/-- `l.sort(key=lambda x: int(x), reverse=True)`: stable descending sort by
numeric value. -/
def sortDescNum (l : List String) : List String :=
  l.foldl (fun acc m => insertDesc m acc) []

/-- The second loop: the version index, with every depot's manifest list
sorted descending by numeric value. -/
def buildIndex (tree : List String) : List (String × List String) :=
  (collectIndex tree).map (fun e => (e.1, sortDescNum e.2))

/-- `depot_map[d]` with the empty list for a missing key (lookup accessor for
the statements below). -/
def lookupIdx : List (String × List String) → String → List String
  | [], _ => []
  | e :: rest, d => if e.1 = d then e.2 else lookupIdx rest d

/-- The claim's membership condition, following the spec's words: a tree path
ending in `.manifest` whose filename stem splits on the first underscore into
two purely numeric tokens.  (For comparison against `entryPair`, which follows
the source and additionally erases every `".manifest"` substring of the stem
before splitting.) -/
def claimStemPair (p : String) : Option (String × String) :=
  if endsWithStr p ".manifest" then
    match splitFirst '_' (pyStem (lastComponent p)).data with
    | some (d, m) =>
      if isDigits (String.mk d) && isDigits (String.mk m) then
        some (String.mk d, String.mk m)
      else none
    | none => none
  else none

lemma lookupIdx_addPair :
    ∀ (acc : List (String × List String)) (d' m' d : String),
      lookupIdx (addPair acc d' m') d =
        if d' = d then lookupIdx acc d ++ [m'] else lookupIdx acc d := by
  intro acc
  induction acc with
  | nil =>
    intro d' m' d
    by_cases h : d' = d <;> simp [addPair, lookupIdx, h]
  | cons e rest ih =>
    intro d' m' d
    rcases e with ⟨k, l⟩
    by_cases hk : k = d'
    · subst hk
      by_cases hd : k = d
      · subst hd
        simp [addPair, lookupIdx]
      · have : ¬ (k = d) := hd
        simp [addPair, lookupIdx, this, if_neg (by simpa using hd)]
    · by_cases hd : k = d
      · subst hd
        have hne : ¬ (d' = k) := fun h => hk h.symm
        simp [addPair, lookupIdx, hk, hne, if_neg hne]
      · simp [addPair, lookupIdx, hk, hd, ih]

lemma collectStep_none (acc : List (String × List String)) (p : String)
    (h : entryPair p = none) : collectStep acc p = acc := by
  simp [collectStep, h]

lemma collectStep_some (acc : List (String × List String)) (p : String)
    (d0 m0 : String) (h : entryPair p = some (d0, m0)) :
    collectStep acc p = addPair acc d0 m0 := by
  simp [collectStep, h]

lemma mem_lookupIdx_collect_go :
    ∀ (tree : List String) (acc : List (String × List String)) (d m : String),
      m ∈ lookupIdx (tree.foldl collectStep acc) d ↔
        m ∈ lookupIdx acc d ∨ ∃ p ∈ tree, entryPair p = some (d, m) := by
  intro tree
  induction tree with
  | nil => intro acc d m; simp
  | cons hd tl ih =>
    intro acc d m
    simp only [List.foldl_cons, List.mem_cons, exists_eq_or_imp]
    rcases hhd : entryPair hd with _ | ⟨d0, m0⟩
    · rw [collectStep_none acc hd hhd]
      rw [ih]
      simp [hhd]
    · rw [collectStep_some acc hd d0 m0 hhd]
      rw [ih, lookupIdx_addPair]
      by_cases hd0 : d0 = d
      · rw [if_pos hd0]
        simp only [List.mem_append, List.mem_singleton, Option.some.injEq,
          Prod.mk.injEq]
        constructor
        · rintro ((h | rfl) | h)
          · exact Or.inl h
          · exact Or.inr (Or.inl ⟨hd0, rfl⟩)
          · exact Or.inr (Or.inr h)
        · rintro (h | ⟨h1, rfl⟩ | h)
          · exact Or.inl (Or.inl h)
          · exact Or.inl (Or.inr rfl)
          · exact Or.inr h
      · rw [if_neg hd0]
        simp only [Option.some.injEq, Prod.mk.injEq]
        constructor
        · rintro (h | h)
          · exact Or.inl h
          · exact Or.inr (Or.inr h)
        · rintro (h | ⟨h1, _⟩ | h)
          · exact Or.inl h
          · exact absurd h1 hd0
          · exact Or.inr h

lemma mem_insertDesc (m x : String) :
    ∀ l : List String, x ∈ insertDesc m l ↔ x = m ∨ x ∈ l := by
  intro l
  induction l with
  | nil => simp [insertDesc]
  | cons y rest ih =>
    by_cases h : toNum m ≤ toNum y
    · simp only [insertDesc, if_pos h, List.mem_cons, ih]
      tauto
    · simp only [insertDesc, if_neg h, List.mem_cons]

lemma mem_sortDescNum_go (m : String) :
    ∀ (l acc : List String),
      m ∈ l.foldl (fun acc x => insertDesc x acc) acc ↔ m ∈ acc ∨ m ∈ l := by
  intro l
  induction l with
  | nil => intro acc; simp
  | cons x rest ih =>
    intro acc
    simp only [List.foldl_cons, ih, mem_insertDesc, List.mem_cons]
    tauto

lemma insertDesc_sorted (m : String) :
    ∀ l : List String, l.Pairwise (fun a b => toNum b ≤ toNum a) →
      (insertDesc m l).Pairwise (fun a b => toNum b ≤ toNum a) := by
  intro l
  induction l with
  | nil => intro _; simp [insertDesc]
  | cons x rest ih =>
    intro hp
    rcases List.pairwise_cons.mp hp with ⟨hx, hrest⟩
    by_cases h : toNum m ≤ toNum x
    · simp only [insertDesc, if_pos h]
      refine List.pairwise_cons.mpr ⟨?_, ih hrest⟩
      intro y hy
      rcases (mem_insertDesc m y rest).mp hy with rfl | hy'
      · exact h
      · exact hx y hy'
    · simp only [insertDesc, if_neg h]
      refine List.pairwise_cons.mpr ⟨?_, hp⟩
      intro y hy
      rcases List.mem_cons.mp hy with rfl | hy'
      · omega
      · have := hx y hy'
        omega

lemma sortDescNum_sorted_go :
    ∀ (l acc : List String), acc.Pairwise (fun a b => toNum b ≤ toNum a) →
      (l.foldl (fun acc x => insertDesc x acc) acc).Pairwise
        (fun a b => toNum b ≤ toNum a) := by
  intro l
  induction l with
  | nil => intro acc h; simpa using h
  | cons x rest ih =>
    intro acc h
    simp only [List.foldl_cons]
    exact ih (insertDesc x acc) (insertDesc_sorted x acc h)

lemma lookupIdx_buildIndex (tree : List String) (d : String) :
    lookupIdx (buildIndex tree) d = sortDescNum (lookupIdx (collectIndex tree) d) := by
  unfold buildIndex
  generalize collectIndex tree = l
  induction l with
  | nil => rfl
  | cons e rest ih =>
    by_cases h : e.1 = d <;> simp [lookupIdx, h, ih]

end OneKeyV2

/-- C3 (counterexample): the tree path `"1_2.manifest.manifest"` has filename
stem `"1_2.manifest"`, which does not split on the first underscore into two
purely numeric tokens, so the claim excludes it from the index; the code
nevertheless indexes manifestId "2" under depotId "1", because it erases every
`".manifest"` substring of the stem before splitting.  Also, the numerically
equal manifestIds "2" and "02" (from two distinct paths of depot 1) stay in
first-seen order, so the per-depot list is not *strictly* descending. -/
theorem buildIndex_counterexample :
    OneKeyV2.claimStemPair "1_2.manifest.manifest" = none ∧
    OneKeyV2.buildIndex ["1_2.manifest.manifest"] = [("1", ["2"])] ∧
    OneKeyV2.buildIndex ["1_2.manifest", "1_02.manifest"] = [("1", ["2", "02"])] ∧
    OneKeyV2.toNum "02" = OneKeyV2.toNum "2" :=
  ⟨rfl, rfl, rfl, rfl⟩

/-- C3 (amended): the version index contains manifestId under depotId exactly
for the tree paths ending in `.manifest` that the source's filter keeps — the
filename stem, after removing every `".manifest"` substring, splits on the
first underscore into two purely numeric tokens (`abc_123.manifest` and
`123.manifest` are still excluded) — and within each depotId the manifestId
list is sorted descending (non-strictly: numerically equal ids keep first-seen
order) by numeric value, e.g. inputs `["10","2","30"]` yield
`["30","10","2"]`. -/
theorem buildIndex_spec (tree : List String) (d m : String) :
    (m ∈ OneKeyV2.lookupIdx (OneKeyV2.buildIndex tree) d ↔
       ∃ p ∈ tree, OneKeyV2.entryPair p = some (d, m)) ∧
    (∀ l, (d, l) ∈ OneKeyV2.buildIndex tree →
       l.Pairwise (fun a b => OneKeyV2.toNum b ≤ OneKeyV2.toNum a)) := by
  constructor
  · rw [OneKeyV2.lookupIdx_buildIndex]
    unfold OneKeyV2.sortDescNum
    rw [OneKeyV2.mem_sortDescNum_go]
    have h := OneKeyV2.mem_lookupIdx_collect_go tree [] d m
    unfold OneKeyV2.collectIndex
    simp only [OneKeyV2.lookupIdx] at h
    rw [h]
    simp [OneKeyV2.lookupIdx]
  · intro l hl
    unfold OneKeyV2.buildIndex at hl
    rcases List.mem_map.mp hl with ⟨e, _, he⟩
    have : l = OneKeyV2.sortDescNum e.2 := (Prod.mk.injEq _ _ _ _ ▸ he).2.symm
    subst this
    exact OneKeyV2.sortDescNum_sorted_go e.2 [] (by simp)

/-- C3 (witness): the amended theorem at the spec's own example — depot 5 with
manifest ids 10, 2, 30 in tree order: 30 is a member, and the stored list
`["30","10","2"]` is sorted descending. -/
theorem buildIndex_spec_witness :
    "30" ∈ OneKeyV2.lookupIdx
      (OneKeyV2.buildIndex ["5_10.manifest", "5_2.manifest", "5_30.manifest"]) "5" ∧
    List.Pairwise (fun a b => OneKeyV2.toNum b ≤ OneKeyV2.toNum a) ["30", "10", "2"] := by
  have h := buildIndex_spec ["5_10.manifest", "5_2.manifest", "5_30.manifest"] "5" "30"
  refine ⟨h.1.mpr ⟨"5_30.manifest", by decide, rfl⟩, h.2 ["30", "10", "2"] ?_⟩
  have : OneKeyV2.buildIndex ["5_10.manifest", "5_2.manifest", "5_30.manifest"] =
      [("5", ["30", "10", "2"])] := rfl
  rw [this]
  exact List.mem_singleton.mpr rfl


namespace OneKeyV2

/-! ### Repository selector (main.py 127-142)

```python
async def get_latest_repo_info(client, repos, app_id, headers):
    latest_date = None
    selected_repo = None
    for repo in repos:
        url = f"https://api.github.com/repos/{repo}/branches/{app_id}"
        response = await client.get(url, headers=headers)
        response_json = response.json()
        if response_json and "commit" in response_json:
            date = response_json["commit"]["commit"]["author"]["date"]
            if latest_date is None or date > latest_date:
                latest_date = date
                selected_repo = repo
    if selected_repo is None or latest_date is None:
        raise ValueError(f"No valid repository found for app ID {app_id}")
    return selected_repo, latest_date
```

Each candidate is the pair of its name and `some date` when the branch
response carries commit data (the commit author timestamp string), or `none`
when the branch is missing (404 body without a "commit" key) or the response
is empty.  Python's `date > latest_date` is lexicographic string comparison by
code point, embedded as `strLt latest_date date`. -/

/-- Python string `<`: lexicographic comparison by code point. -/
def strLt : List Char → List Char → Bool
  | [], [] => false
  | [], _ :: _ => true
  | _ :: _, [] => false
  | c :: cs, d :: ds =>
    if c.toNat < d.toNat then true
    else if d.toNat < c.toNat then false
    else strLt cs ds

/-- Python string `<` on the embedded strings. -/
def pyLt (a b : String) : Bool := strLt a.data b.data

/-- The selection loop: the accumulator holds `(selected_repo, latest_date)`;
a candidate replaces it only when its date compares strictly greater. -/
def selectLoop : List (String × Option String) → Option (String × String) →
    Option (String × String)
  | [], acc => acc
  | (_, none) :: rest, acc => selectLoop rest acc
  | (repo, some date) :: rest, acc =>
    match acc with
    | none => selectLoop rest (some (repo, date))
    | some (r0, d0) =>
      if pyLt d0 date then selectLoop rest (some (repo, date))
      else selectLoop rest (some (r0, d0))

/-- `get_latest_repo_info`: the selected repository and its commit timestamp,
or the raised `ValueError`'s message. -/
def get_latest_repo_info (app_id : String) (branches : List (String × Option String)) :
    Except String (String × String) :=
  match selectLoop branches none with
  | some rd => Except.ok rd
  | none => Except.error ("No valid repository found for app ID " ++ app_id)

lemma strLt_irrefl : ∀ a : List Char, strLt a a = false := by
  intro a
  induction a with
  | nil => rfl
  | cons c cs ih => simp [strLt, ih]

lemma strLt_asymm : ∀ a b : List Char, strLt a b = true → strLt b a = false := by
  intro a
  induction a with
  | nil =>
    intro b _
    cases b <;> rfl
  | cons c cs ih =>
    intro b h
    cases b with
    | nil => cases h
    | cons d ds =>
      simp only [strLt] at h ⊢
      by_cases h1 : c.toNat < d.toNat
      · have h2 : ¬ d.toNat < c.toNat := by omega
        simp [h1, h2]
      · by_cases h2 : d.toNat < c.toNat
        · simp [h1, h2] at h
        · simp [h1, h2] at h ⊢
          exact ih ds h

lemma strLt_trans : ∀ a b c : List Char,
    strLt a b = true → strLt b c = true → strLt a c = true := by
  intro a
  induction a with
  | nil =>
    intro b c hab hbc
    cases c with
    | nil =>
      cases b with
      | nil => cases hab
      | cons d ds => cases hbc
    | cons e es => rfl
  | cons x xs ih =>
    intro b c hab hbc
    cases b with
    | nil => cases hab
    | cons y ys =>
      cases c with
      | nil => cases hbc
      | cons z zs =>
        simp only [strLt] at hab hbc ⊢
        by_cases hxy : x.toNat < y.toNat <;> by_cases hyz : y.toNat < z.toNat
        · have hxz : x.toNat < z.toNat := by omega
          simp [hxz]
        · by_cases hzy : z.toNat < y.toNat
          · simp [hyz, hzy] at hbc
          · have hxz : x.toNat < z.toNat := by omega
            simp [hxz]
        · by_cases hyx : y.toNat < x.toNat
          · simp [hxy, hyx] at hab
          · have hxz : x.toNat < z.toNat := by omega
            simp [hxz]
        · by_cases hyx : y.toNat < x.toNat
          · simp [hxy, hyx] at hab
          · by_cases hzy : z.toNat < y.toNat
            · simp [hyz, hzy] at hbc
            · have h1 : ¬ x.toNat < z.toNat := by omega
              have h2 : ¬ z.toNat < x.toNat := by omega
              simp [hxy, hyx] at hab
              simp [hyz, hzy] at hbc
              simp [h1, h2]
              exact ih ys zs hab hbc

lemma strLt_le_lt_trans : ∀ b a c : List Char,
    strLt b a = false → strLt b c = true → strLt a c = true := by
  intro b
  induction b with
  | nil =>
    intro a c hab hbc
    cases a with
    | nil => exact hbc
    | cons x xs => cases hab
  | cons y ys ih =>
    intro a c hab hbc
    cases c with
    | nil => cases hbc
    | cons z zs =>
      cases a with
      | nil => rfl
      | cons x xs =>
        simp only [strLt] at hab hbc ⊢
        by_cases hyx : y.toNat < x.toNat
        · simp [hyx] at hab
        · by_cases hyz : y.toNat < z.toNat
          · have hxz : x.toNat < z.toNat := by omega
            simp [hxz]
          · by_cases hzy : z.toNat < y.toNat
            · simp [hyz, hzy] at hbc
            · simp [hyz, hzy] at hbc
              by_cases hxy : x.toNat < y.toNat
              · have hxz : x.toNat < z.toNat := by omega
                simp [hxz]
              · have hxz1 : ¬ x.toNat < z.toNat := by omega
                have hxz2 : ¬ z.toNat < x.toNat := by omega
                simp [hyx, hxy] at hab
                simp [hxz1, hxz2]
                exact ih xs zs hab hbc

lemma pyLt_of_nlt_of_lt {a b c : String}
    (hab : pyLt b a = false) (hbc : pyLt b c = true) : pyLt a c = true :=
  strLt_le_lt_trans b.data a.data c.data hab hbc

lemma selectLoop_all_none :
    ∀ (l : List (String × Option String)) (acc : Option (String × String)),
      (∀ p ∈ l, p.2 = none) → selectLoop l acc = acc := by
  intro l
  induction l with
  | nil => intro acc _; rfl
  | cons hd tl ih =>
    intro acc h
    rcases hd with ⟨repo, od⟩
    have hod : od = none := h (repo, od) (List.mem_cons_self _ _)
    subst hod
    exact ih acc (fun p hp => h p (List.mem_cons_of_mem _ hp))

lemma selectLoop_some_isSome :
    ∀ (l : List (String × Option String)) (p : String × String),
      ∃ q, selectLoop l (some p) = some q := by
  intro l
  induction l with
  | nil => intro p; exact ⟨p, rfl⟩
  | cons hd tl ih =>
    intro p
    rcases hd with ⟨repo, _ | date⟩
    · exact ih p
    · rcases p with ⟨r0, d0⟩
      by_cases h : pyLt d0 date = true
      · simpa [selectLoop, h] using ih (repo, date)
      · have h' : pyLt d0 date = false := Bool.eq_false_iff.mpr h
        simpa [selectLoop, h'] using ih (r0, d0)

lemma selectLoop_reaches_some :
    ∀ (l : List (String × Option String)),
      (∃ p ∈ l, p.2 ≠ none) → ∃ q, selectLoop l none = some q := by
  intro l
  induction l with
  | nil => rintro ⟨p, hp, _⟩; cases hp
  | cons hd tl ih =>
    rintro ⟨p, hp, hne⟩
    rcases hd with ⟨repo, _ | date⟩
    · rcases List.mem_cons.mp hp with rfl | hp'
      · exact absurd rfl hne
      · exact ih ⟨p, hp', hne⟩
    · exact selectLoop_some_isSome tl (repo, date)

lemma selectLoop_characterize :
    ∀ (l : List (String × Option String)) (acc : Option (String × String))
      (r d : String),
      selectLoop l acc = some (r, d) →
      (acc = some (r, d) ∧ ∀ rj dj, (rj, some dj) ∈ l → pyLt d dj = false) ∨
      (∃ pre post, l = pre ++ (r, some d) :: post ∧
        (∀ r0 d0, acc = some (r0, d0) → pyLt d0 d = true) ∧
        (∀ rj dj, (rj, some dj) ∈ pre → pyLt dj d = true) ∧
        (∀ rj dj, (rj, some dj) ∈ post → pyLt d dj = false)) := by
  intro l
  induction l with
  | nil =>
    intro acc r d h
    left
    exact ⟨h, by simp⟩
  | cons hd tl ih =>
    intro acc r d h
    rcases hd with ⟨repo, _ | date⟩
    · rcases ih acc r d h with ⟨hacc, hle⟩ | ⟨pre, post, hsplit, haccd, hpre, hpost⟩
      · left
        refine ⟨hacc, ?_⟩
        intro rj dj hj
        rcases List.mem_cons.mp hj with heq | hj'
        · cases heq
        · exact hle rj dj hj'
      · right
        refine ⟨(repo, none) :: pre, post, by rw [hsplit, List.cons_append], haccd, ?_, hpost⟩
        intro rj dj hj
        rcases List.mem_cons.mp hj with heq | hj'
        · cases heq
        · exact hpre rj dj hj'
    · rcases acc with _ | ⟨r0, d0⟩
      · have h' : selectLoop tl (some (repo, date)) = some (r, d) := h
        rcases ih (some (repo, date)) r d h' with ⟨hacc, hle⟩ |
          ⟨pre, post, hsplit, haccd, hpre, hpost⟩
        · obtain ⟨rfl, rfl⟩ : repo = r ∧ date = d := by
            simp only [Option.some.injEq, Prod.mk.injEq] at hacc
            exact hacc
          right
          refine ⟨[], tl, rfl, ?_, ?_, hle⟩
          · rintro r0 d0 ⟨⟩
          · rintro rj dj ⟨⟩
        · have hdate : pyLt date d = true := haccd repo date rfl
          right
          refine ⟨(repo, some date) :: pre, post, by rw [hsplit, List.cons_append], ?_, ?_, hpost⟩
          · rintro r0 d0 ⟨⟩
          · intro rj dj hj
            rcases List.mem_cons.mp hj with heq | hj'
            · have hdj : dj = date := by
                simp only [Prod.mk.injEq, Option.some.injEq] at heq
                exact heq.2
              rw [hdj]; exact hdate
            · exact hpre rj dj hj'
      · by_cases hlt : pyLt d0 date = true
        · have h' : selectLoop tl (some (repo, date)) = some (r, d) := by
            simpa [selectLoop, hlt] using h
          rcases ih (some (repo, date)) r d h' with ⟨hacc, hle⟩ |
            ⟨pre, post, hsplit, haccd, hpre, hpost⟩
          · obtain ⟨rfl, rfl⟩ : repo = r ∧ date = d := by
              simp only [Option.some.injEq, Prod.mk.injEq] at hacc
              exact hacc
            right
            refine ⟨[], tl, rfl, ?_, ?_, hle⟩
            · intro r0' d0' heq
              have hd0 : d0' = d0 := by
                simp only [Option.some.injEq, Prod.mk.injEq] at heq
                exact heq.2.symm
              rw [hd0]; exact hlt
            · rintro rj dj ⟨⟩
          · have hdate : pyLt date d = true := haccd repo date rfl
            right
            refine ⟨(repo, some date) :: pre, post, by rw [hsplit, List.cons_append], ?_, ?_, hpost⟩
            · intro r0' d0' heq
              have hd0 : d0' = d0 := by
                simp only [Option.some.injEq, Prod.mk.injEq] at heq
                exact heq.2.symm
              rw [hd0]
              exact strLt_trans d0.data date.data d.data hlt hdate
            · intro rj dj hj
              rcases List.mem_cons.mp hj with heq | hj'
              · have hdj : dj = date := by
                  simp only [Prod.mk.injEq, Option.some.injEq] at heq
                  exact heq.2
                rw [hdj]; exact hdate
              · exact hpre rj dj hj'
        · have hge : pyLt d0 date = false := Bool.eq_false_iff.mpr hlt
          have h' : selectLoop tl (some (r0, d0)) = some (r, d) := by
            simpa [selectLoop, hge] using h
          rcases ih (some (r0, d0)) r d h' with ⟨hacc, hle⟩ |
            ⟨pre, post, hsplit, haccd, hpre, hpost⟩
          · obtain ⟨rfl, rfl⟩ : r0 = r ∧ d0 = d := by
              simp only [Option.some.injEq, Prod.mk.injEq] at hacc
              exact hacc
            left
            refine ⟨rfl, ?_⟩
            intro rj dj hj
            rcases List.mem_cons.mp hj with heq | hj'
            · have hdj : dj = date := by
                simp only [Prod.mk.injEq, Option.some.injEq] at heq
                exact heq.2
              rw [hdj]; exact hge
            · exact hle rj dj hj'
          · have hd0 : pyLt d0 d = true := haccd r0 d0 rfl
            right
            refine ⟨(repo, some date) :: pre, post, by rw [hsplit, List.cons_append], ?_, ?_, hpost⟩
            · intro r0' d0' heq
              have hq : d0' = d0 := by
                simp only [Option.some.injEq, Prod.mk.injEq] at heq
                exact heq.2.symm
              rw [hq]; exact hd0
            · intro rj dj hj
              rcases List.mem_cons.mp hj with heq | hj'
              · have hdj : dj = date := by
                  simp only [Prod.mk.injEq, Option.some.injEq] at heq
                  exact heq.2
                rw [hdj]
                exact pyLt_of_nlt_of_lt hge hd0
              · exact hpre rj dj hj'

end OneKeyV2

/-- C5: (a) when no candidate repository has the branch (every branch response
lacks commit data), the selector fails with the not-found `ValueError`
message; (b) when at least one candidate has the branch, it returns some
candidate; (c) whatever it returns is a candidate that has the branch
(`branches = pre ++ (r, some d) :: post`), every earlier candidate's
timestamp is lexicographically strictly smaller (`pyLt dj d = true` —
first-seen wins on ties, since strict `>` is used) and no candidate's
timestamp is greater (`pyLt d dj = false`), i.e. `d` is lexicographically
maximal among candidates that have the branch. -/
theorem get_latest_repo_info_spec (app_id : String)
    (branches : List (String × Option String)) :
    ((∀ p ∈ branches, p.2 = none) →
       OneKeyV2.get_latest_repo_info app_id branches =
         Except.error ("No valid repository found for app ID " ++ app_id)) ∧
    ((∃ p ∈ branches, p.2 ≠ none) →
       ∃ r d, OneKeyV2.get_latest_repo_info app_id branches = Except.ok (r, d)) ∧
    (∀ r d, OneKeyV2.get_latest_repo_info app_id branches = Except.ok (r, d) →
       ∃ pre post, branches = pre ++ (r, some d) :: post ∧
         (∀ rj dj, (rj, some dj) ∈ pre → OneKeyV2.pyLt dj d = true) ∧
         (∀ rj dj, (rj, some dj) ∈ branches → OneKeyV2.pyLt d dj = false)) := by
  refine ⟨?_, ?_, ?_⟩
  · intro h
    unfold OneKeyV2.get_latest_repo_info
    rw [OneKeyV2.selectLoop_all_none branches none h]
  · intro h
    obtain ⟨⟨r, d⟩, hq⟩ := OneKeyV2.selectLoop_reaches_some branches h
    exact ⟨r, d, by unfold OneKeyV2.get_latest_repo_info; rw [hq]⟩
  · intro r d h
    have hsel : OneKeyV2.selectLoop branches none = some (r, d) := by
      unfold OneKeyV2.get_latest_repo_info at h
      rcases hs : OneKeyV2.selectLoop branches none with _ | q
      · rw [hs] at h; cases h
      · rw [hs] at h
        cases h
        rfl
    rcases OneKeyV2.selectLoop_characterize branches none r d hsel with
      ⟨hacc, _⟩ | ⟨pre, post, hsplit, _, hpre, hpost⟩
    · cases hacc
    · refine ⟨pre, post, hsplit, hpre, ?_⟩
      intro rj dj hj
      rw [hsplit] at hj
      rcases List.mem_append.mp hj with hj' | hj'
      · exact OneKeyV2.strLt_asymm dj.data d.data (hpre rj dj hj')
      · rcases List.mem_cons.mp hj' with heq | hj2
        · have hdj : dj = d := by
            simp only [Prod.mk.injEq, Option.some.injEq] at heq
            exact heq.2
          rw [hdj]
          have : ∀ a : List Char, OneKeyV2.strLt a a = false := by
            intro a
            induction a with
            | nil => rfl
            | cons c cs ihc => simp [OneKeyV2.strLt, ihc]
          exact this d.data
        · exact hpost rj dj hj2

/-- C5 (witness): the theorem applied to a concrete candidate list — an
all-missing list yields the not-found error; among candidates C and D sharing
the maximal timestamp, the first-seen C is selected, every earlier dated
candidate is strictly older and no dated candidate is newer. -/
theorem get_latest_repo_info_spec_witness :
    OneKeyV2.get_latest_repo_info "10" [("A", (none : Option String))] =
      Except.error ("No valid repository found for app ID " ++ "10") ∧
    (∃ r d, OneKeyV2.get_latest_repo_info "10"
      [("A", none), ("B", some "2024-01-01T00:00:00Z"),
       ("C", some "2025-03-03T00:00:00Z"), ("D", some "2025-03-03T00:00:00Z")] =
        Except.ok (r, d)) ∧
    (∃ pre post,
      ([("A", none), ("B", some "2024-01-01T00:00:00Z"),
        ("C", some "2025-03-03T00:00:00Z"), ("D", some "2025-03-03T00:00:00Z")] :
          List (String × Option String)) =
        pre ++ ("C", some "2025-03-03T00:00:00Z") :: post ∧
      (∀ rj dj, (rj, some dj) ∈ pre → OneKeyV2.pyLt dj "2025-03-03T00:00:00Z" = true) ∧
      (∀ rj dj, (rj, some dj) ∈
        ([("A", none), ("B", some "2024-01-01T00:00:00Z"),
          ("C", some "2025-03-03T00:00:00Z"), ("D", some "2025-03-03T00:00:00Z")] :
            List (String × Option String)) →
          OneKeyV2.pyLt "2025-03-03T00:00:00Z" dj = false)) := by
  refine ⟨(get_latest_repo_info_spec "10" _).1 ?_,
          (get_latest_repo_info_spec "10" _).2.1 ?_,
          (get_latest_repo_info_spec "10" _).2.2 "C" "2025-03-03T00:00:00Z" ?_⟩
  · intro p hp
    simp only [List.mem_singleton] at hp
    rw [hp]
  · exact ⟨("B", some "2024-01-01T00:00:00Z"), by simp, by simp⟩
  · rfl
